import Mathlib

/-!
# Verification of `fbnet/command_runner/command_session.py`

A shallow embedding, in Lean 4, of the session cache / reaper, the
access-tracking decorator, the close path, the readiness notification,
the stream matcher and the command execution pipeline of the FCR
`command_session` module, together with theorems settling the
specification claims about them.

Modelling conventions:
* byte strings are `List Nat`,
* times are `Int` (seconds since epoch, the only operations used are
  subtraction and comparison),
* the `_ALL_SESSIONS` dict is an association list,
* coroutines whose effects matter are explicit state-passing functions,
  and code paths that raise return `Except`.
-/

namespace FCR

/-! ## Bytes -/

abbrev Byte := Nat
abbrev Bytes := List Byte

/-- Code points of a string literal, used to write concrete byte strings. -/
def strBytes (s : String) : Bytes := s.data.map Char.toNat

/-! ## Session cache and reaper

`CommandSession` keeps `_last_access_time` (a float timestamp),
`_in_use_count` (a nat, `in_use` is `_in_use_count > 0`) and the
configured `idle_timeout`.  Only these fields matter to
`SessionReaperTask.run`, so the reaper-facing session record carries
exactly them. -/

structure Session where
  last_access_time : Int
  idle_timeout : Int
  in_use_count : Nat
deriving DecidableEq, Repr

/-- `CommandSession.in_use` property: `self._in_use_count > 0`. -/
def Session.in_use (s : Session) : Bool := decide (0 < s.in_use_count)

/-- Keys of `_ALL_SESSIONS` are `(id(self), client_ip, client_port)`
tuples; their only role here is identity, so a `Nat` stands for one. -/
abbrev SessionKey := Nat

/-- The `_ALL_SESSIONS` dict, as an association list. -/
abbrev Cache := List (SessionKey × Session)

/-- Dict lookup (`_ALL_SESSIONS[key]` / `key in _ALL_SESSIONS`). -/
def cacheFind (k : SessionKey) : Cache → Option Session
  | [] => none
  | (k', s) :: rest => if k' = k then some s else cacheFind k rest

/-- Dict deletion (`del _ALL_SESSIONS[key]`). -/
def eraseKey (k : SessionKey) (c : Cache) : Cache :=
  c.filter (fun p => p.1 ≠ k)

/-- The reap condition from `SessionReaperTask.run`:
`time_since_last_access > MAX_SESSION_LAST_ACCESS_TIMEOUT_S or
 (not session.in_use and time_since_last_access > min(session.idle_timeout,
 MAX_SESSION_IDLE_TIMEOUT_S))`. -/
def shouldReap (maxIdle maxLast now : Int) (s : Session) : Bool :=
  decide (now - s.last_access_time > maxLast) ||
    (!s.in_use &&
      decide (now - s.last_access_time > min s.idle_timeout maxIdle))

/-- Result of one sweep of `SessionReaperTask.run`:  the surviving cache,
how many sessions had `_bump_counters_for_reaped_session` called for them
(the `session_reaper.reaped.all` counter), and whether an exception from a
`session.close()` aborted the loop (it is then caught and logged by the
`except` clause wrapping the whole body of `run`). -/
structure SweepResult where
  cache : Cache
  reaped : Nat
  aborted : Bool
deriving DecidableEq, Repr

/-- The `for key in list(self._sessions.keys())` loop of
`SessionReaperTask.run`.  `closeFails k` says whether `session.close()`
raises for the session under key `k`; `close` first deletes the key from
the cache (its `try` block) and only then runs the failing `_close`, so
on failure the key is already gone.  A raised exception propagates out of
the loop to the `except` at the top of `run`, so the remaining keys are
not visited. -/
def sweepGo (maxIdle maxLast now : Int) (closeFails : SessionKey → Bool) :
    List SessionKey → Cache → SweepResult
  | [], c => ⟨c, 0, false⟩
  | k :: rest, c =>
    match cacheFind k c with
    | none => sweepGo maxIdle maxLast now closeFails rest c
    | some s =>
      if shouldReap maxIdle maxLast now s then
        -- `await session.close()`: removes the key, then `_close()` runs
        let c' := eraseKey k c
        if closeFails k then ⟨c', 0, true⟩
        else
          -- `if key in self._sessions: del ...` is a no-op (already gone),
          -- then `self._bump_counters_for_reaped_session(session)`
          let r := sweepGo maxIdle maxLast now closeFails rest c'
          ⟨r.cache, r.reaped + 1, r.aborted⟩
      else sweepGo maxIdle maxLast now closeFails rest c

/-- One invocation of `SessionReaperTask.run` (the periodic sweep). -/
def reaperRun (maxIdle maxLast now : Int) (closeFails : SessionKey → Bool)
    (c : Cache) : SweepResult :=
  sweepGo maxIdle maxLast now closeFails (c.map Prod.fst) c

theorem cacheFind_eraseKey_self (k : SessionKey) (c : Cache) :
    cacheFind k (eraseKey k c) = none := by
  induction c with
  | nil => rfl
  | cons p rest ih =>
    obtain ⟨k', s⟩ := p
    by_cases h : k' = k
    · simp [eraseKey, cacheFind, h] at ih ⊢
      exact ih
    · simpa [eraseKey, cacheFind, h] using ih

theorem cacheFind_eraseKey_ne (k j : SessionKey) (c : Cache) (h : j ≠ k) :
    cacheFind k (eraseKey j c) = cacheFind k c := by
  induction c with
  | nil => rfl
  | cons p rest ih =>
    obtain ⟨k', s⟩ := p
    by_cases hk : k' = k
    · subst hk
      simp [eraseKey, cacheFind, Ne.symm h, List.filter]
    · by_cases hj : k' = j
      · subst hj
        simpa [eraseKey, cacheFind, hk] using ih
      · simp only [eraseKey, List.filter] at ih ⊢
        simp [hj, cacheFind, hk]
        simpa [eraseKey, cacheFind, hk] using ih

theorem cacheFind_mem_keys {k : SessionKey} {s : Session} {c : Cache}
    (h : cacheFind k c = some s) : k ∈ c.map Prod.fst := by
  induction c with
  | nil => simp [cacheFind] at h
  | cons p rest ih =>
    obtain ⟨k', s'⟩ := p
    by_cases hk : k' = k
    · simp [hk]
    · simp only [cacheFind, hk, if_false] at h
      simp [ih h]

/-- A sweep never inserts: a key absent from the cache stays absent. -/
theorem sweepGo_find_none (maxIdle maxLast now : Int)
    (closeFails : SessionKey → Bool) (L : List SessionKey) (c : Cache)
    (k : SessionKey) (h : cacheFind k c = none) :
    cacheFind k (sweepGo maxIdle maxLast now closeFails L c).cache = none := by
  induction L generalizing c with
  | nil => simpa [sweepGo]
  | cons j rest ih =>
    simp only [sweepGo]
    cases hj : cacheFind j c with
    | none => exact ih c h
    | some s =>
      by_cases hr : shouldReap maxIdle maxLast now s
      · simp only [hr, if_true]
        by_cases hf : closeFails j
        · simp only [hf, if_true]
          by_cases hkj : j = k
          · subst hkj
            exact cacheFind_eraseKey_self _ _
          · rw [cacheFind_eraseKey_ne k j c hkj] at *
            exact h
        · simp only [hf, if_false]
          by_cases hkj : j = k
          · subst hkj
            exact ih _ (cacheFind_eraseKey_self _ _)
          · exact ih _ (by rw [cacheFind_eraseKey_ne k j c hkj]; exact h)
      · simp only [hr, if_false]
        exact ih c h

/-- Main sweep lemma: with no close failures, a cached session survives the
sweep untouched exactly when its key is not visited or the reap condition
fails for it. -/
theorem sweepGo_find (maxIdle maxLast now : Int)
    (closeFails : SessionKey → Bool) (hf : ∀ j, closeFails j = false)
    (L : List SessionKey) (c : Cache) (k : SessionKey) (s : Session)
    (hs : cacheFind k c = some s) :
    cacheFind k (sweepGo maxIdle maxLast now closeFails L c).cache =
      if k ∈ L ∧ shouldReap maxIdle maxLast now s then none else some s := by
  induction L generalizing c with
  | nil => simpa [sweepGo]
  | cons j rest ih =>
    simp only [sweepGo]
    cases hj : cacheFind j c with
    | none =>
      have hkj : k ≠ j := by
        intro he
        rw [he, hj] at hs
        exact Option.noConfusion hs
      rw [ih c hs]
      simp [List.mem_cons, hkj]
    | some t =>
      dsimp only
      by_cases hkj : j = k
      · have hts : t = s := by
          rw [hkj, hs] at hj
          exact (Option.some.inj hj).symm
        subst hts
        subst hkj
        by_cases hr : shouldReap maxIdle maxLast now t
        · have hnone := sweepGo_find_none maxIdle maxLast now closeFails rest
            (eraseKey j c) j (cacheFind_eraseKey_self j c)
          simp [hr, hf j, hnone]
        · rw [if_neg hr, ih c hs]
          simp [hr]
      · have hs' : cacheFind k (eraseKey j c) = some s := by
          rw [cacheFind_eraseKey_ne k j c hkj]
          exact hs
        have hkj' : ¬k = j := fun h => hkj h.symm
        by_cases hr : shouldReap maxIdle maxLast now t
        · rw [if_pos hr, hf j]
          simp only [Bool.false_eq_true, if_false]
          rw [ih _ hs']
          simp [List.mem_cons, hkj']
        · rw [if_neg hr, ih c hs]
          simp [List.mem_cons, hkj']

/-- C1: during a reaper sweep (with no close failures) a cached session is
closed and removed from the cache exactly when
`now - last_access_time > MAX_SESSION_LAST_ACCESS_TIMEOUT_S` or it is not
in use and `now - last_access_time > min(idle_timeout,
MAX_SESSION_IDLE_TIMEOUT_S)`; otherwise it survives unchanged.  In
particular an in-use session is never removed for idleness alone, but is
removed once the absolute last-access bound is exceeded. -/
theorem reaper_removes_iff_stale (maxIdle maxLast now : Int) (c : Cache)
    (k : SessionKey) (s : Session) (hs : cacheFind k c = some s) :
    (cacheFind k (reaperRun maxIdle maxLast now (fun _ => false) c).cache =
      if now - s.last_access_time > maxLast ∨
          (s.in_use = false ∧
            now - s.last_access_time > min s.idle_timeout maxIdle)
        then none else some s) ∧
    (s.in_use = true → now - s.last_access_time ≤ maxLast →
      cacheFind k (reaperRun maxIdle maxLast now (fun _ => false) c).cache =
        some s) := by
  have hk : k ∈ c.map Prod.fst := cacheFind_mem_keys hs
  have hmain := sweepGo_find maxIdle maxLast now (fun _ => false)
    (fun _ => rfl) (c.map Prod.fst) c k s hs
  have hcond : (k ∈ c.map Prod.fst ∧
      shouldReap maxIdle maxLast now s = true) ↔
      (now - s.last_access_time > maxLast ∨
        (s.in_use = false ∧
          now - s.last_access_time > min s.idle_timeout maxIdle)) := by
    simp only [hk, true_and, shouldReap, Bool.or_eq_true, decide_eq_true_eq,
      Bool.and_eq_true, Bool.not_eq_true']
  constructor
  · rw [reaperRun, hmain]
    by_cases h : now - s.last_access_time > maxLast ∨
        (s.in_use = false ∧
          now - s.last_access_time > min s.idle_timeout maxIdle)
    · rw [if_pos (hcond.mpr h), if_pos h]
    · rw [if_neg (fun hc => h (hcond.mp hc)), if_neg h]
  · intro hu hle
    rw [reaperRun, hmain, if_neg]
    intro hc
    rcases hcond.mp hc with h1 | h2
    · omega
    · rw [hu] at h2
      exact Bool.noConfusion h2.1

/-- Witness for `reaper_removes_iff_stale`: a concrete idle stale session
is removed by the sweep. -/
theorem reaper_removes_iff_stale_witness :
    (cacheFind 1 (reaperRun 10 100 50 (fun _ => false)
        [(1, ⟨0, 5, 0⟩)]).cache =
      if (50 : Int) - 0 > 100 ∨
          ((⟨0, 5, 0⟩ : Session).in_use = false ∧
            (50 : Int) - 0 > min 5 10)
        then none else some ⟨0, 5, 0⟩) ∧
    ((⟨0, 5, 0⟩ : Session).in_use = true → (50 : Int) - 0 ≤ 100 →
      cacheFind 1 (reaperRun 10 100 50 (fun _ => false)
          [(1, ⟨0, 5, 0⟩)]).cache = some ⟨0, 5, 0⟩) :=
  reaper_removes_iff_stale 10 100 50 [(1, ⟨0, 5, 0⟩)] 1 ⟨0, 5, 0⟩ rfl

/-- C3 counterexample: two stale sessions are cached and closing the first
one raises.  The claim says the second is still examined and removed in
the same sweep; in fact the exception propagates out of the `for` loop to
the `except` wrapping the whole body of `run`, so the second (stale)
session is still in the cache after the sweep. -/
theorem reaper_close_failure_counterexample :
    cacheFind 2 (reaperRun 10 100 50 (fun k => decide (k = 1))
        [(1, ⟨0, 5, 0⟩), (2, ⟨0, 5, 0⟩)]).cache = some ⟨0, 5, 0⟩ ∧
      shouldReap 10 100 50 ⟨0, 5, 0⟩ = true := by
  decide

/-- C3 amended: when `session.close()` raises during a sweep, the
exception is caught (and logged) only by the `except` around the whole
loop body, so the sweep stops: the failing session is already out of the
cache (`close` deletes the key before `_close` runs), no reap counter is
bumped for it, and the remaining sessions — stale or not — are left in
the cache untouched until a later sweep.  The reaper task itself
survives: `reaperRun` returns normally with `aborted = true`. -/
theorem reaper_close_failure_aborts (k1 k2 : SessionKey) (s1 s2 : Session)
    (maxIdle maxLast now : Int) (closeFails : SessionKey → Bool)
    (hne : k1 ≠ k2)
    (h1 : shouldReap maxIdle maxLast now s1 = true)
    (hf : closeFails k1 = true) :
    reaperRun maxIdle maxLast now closeFails [(k1, s1), (k2, s2)] =
      ⟨[(k2, s2)], 0, true⟩ := by
  have hne' : ¬k2 = k1 := fun h => hne h.symm
  simp [reaperRun, sweepGo, cacheFind, h1, hf, eraseKey, List.filter, hne']

/-- Witness for `reaper_close_failure_aborts` at a concrete cache. -/
theorem reaper_close_failure_aborts_witness :
    reaperRun 10 100 50 (fun k => decide (k = 1))
        [(1, ⟨0, 5, 0⟩), (2, ⟨0, 5, 0⟩)] = ⟨[(2, ⟨0, 5, 0⟩)], 0, true⟩ :=
  reaper_close_failure_aborts 1 2 ⟨0, 5, 0⟩ ⟨0, 5, 0⟩ 10 100 50 _
    (by decide) (by decide) (by decide)

/-! ## Access tracking (`_update_last_access_time_and_in_use`)

The decorator increments `_in_use_count` and stamps `_last_access_time`
before awaiting the wrapped coroutine, and decrements the counter and
stamps the time again in a `finally`, i.e. also when the coroutine
raises.  The wrapped coroutine is modelled as a state transformer
returning `Except` (its body may touch `last_access_time` but, like the
real `setup` / `_run_command`, leaves the counter balanced). -/

structure AccessState where
  in_use_count : Nat
  last_access_time : Int
deriving DecidableEq, Repr

/-- The `in_use` property over the decorator-visible state. -/
def AccessState.in_use (s : AccessState) : Bool := decide (0 < s.in_use_count)

/-- `_update_last_access_time_and_in_use`: the wrapper around `fn`.
`tEntry` and `tExit` are the values `time.time()` returns at entry and at
exit. -/
def update_last_access_time_and_in_use {ε α : Type} (tEntry tExit : Int)
    (fn : AccessState → AccessState × Except ε α) (st : AccessState) :
    AccessState × Except ε α :=
  let stEntry : AccessState :=
    { in_use_count := st.in_use_count + 1, last_access_time := tEntry }
  let r := fn stEntry
  ({ in_use_count := r.1.in_use_count - 1, last_access_time := tExit }, r.2)

/-- C2: for every decorated session operation (`setup`, `run_command`) the
state seen by the wrapped body has `in_use_count` one above the caller's
(hence `in_use` during the whole operation) and `last_access_time`
stamped at entry; on exit — whether the body returned or raised — the
counter is restored and `last_access_time` is stamped again.  With a
baseline count of zero, `in_use` is false immediately before and
immediately after a completed call. -/
theorem access_tracking_spec {ε α : Type} (tEntry tExit : Int)
    (fn : AccessState → AccessState × Except ε α) (st : AccessState)
    (hpres : ∀ s, (fn s).1.in_use_count = s.in_use_count) :
    ((update_last_access_time_and_in_use tEntry tExit fn st).1 =
        { in_use_count := st.in_use_count, last_access_time := tExit }) ∧
    ((update_last_access_time_and_in_use tEntry tExit fn st).2 =
        (fn { in_use_count := st.in_use_count + 1,
              last_access_time := tEntry }).2) ∧
    (AccessState.in_use
        { in_use_count := st.in_use_count + 1, last_access_time := tEntry }
      = true) ∧
    (st.in_use_count = 0 →
      st.in_use = false ∧
      (update_last_access_time_and_in_use tEntry tExit fn st).1.in_use
        = false) := by
  refine ⟨?_, rfl, by simp [AccessState.in_use], ?_⟩
  · simp [update_last_access_time_and_in_use, hpres]
  · intro h0
    constructor
    · simp [AccessState.in_use, h0]
    · simp [update_last_access_time_and_in_use, hpres, AccessState.in_use, h0]

/-- Witness for `access_tracking_spec`, with a body that raises. -/
theorem access_tracking_spec_witness :
    ((update_last_access_time_and_in_use (ε := Nat) (α := Nat) 10 20
        (fun s => (s, Except.error 7)) ⟨0, 0⟩).1 =
        { in_use_count := 0, last_access_time := 20 }) ∧
    ((update_last_access_time_and_in_use (ε := Nat) (α := Nat) 10 20
        (fun s => (s, Except.error 7)) ⟨0, 0⟩).2 =
        ((fun (s : AccessState) => (s, Except.error (ε := Nat) (7 : Nat)))
          { in_use_count := 0 + 1, last_access_time := 10 }).2) ∧
    (AccessState.in_use { in_use_count := 0 + 1, last_access_time := 10 }
      = true) ∧
    ((0 : Nat) = 0 →
      (⟨0, 0⟩ : AccessState).in_use = false ∧
      (update_last_access_time_and_in_use (ε := Nat) (α := Nat) 10 20
        (fun s => (s, Except.error 7)) ⟨0, 0⟩).1.in_use = false) :=
  access_tracking_spec 10 20 (fun s => (s, Except.error 7)) ⟨0, 0⟩
    (fun _ => rfl)

/-! ## `close()` and `SSHCommandSession._close`

`CommandSession.close` deletes the key from `_ALL_SESSIONS` if present
(its `try` block) and then, in a `finally`, unconditionally bumps the
`closed` counter, awaits the subclass `_close`, closes `_cmd_stream` when
set, and clears `_connected`.  `SSHCommandSession._close` closes `_chan`
and `_conn` when they exist; neither is ever reset to `None`, so a second
`close()` calls `close()` on the same channel/connection again.  The
booleans below record which resources exist (`is not None`) and the
`_calls` counters count `close()` invocations on each resource. -/

structure SSHSessionState where
  connected : Bool
  closed_counter : Nat
  chan : Bool
  conn : Bool
  cmd_stream : Bool
  chan_close_calls : Nat
  conn_close_calls : Nat
  stream_close_calls : Nat
deriving DecidableEq, Repr

/-- `SSHCommandSession._close`. -/
def ssh_close (st : SSHSessionState) : SSHSessionState :=
  let st1 :=
    if st.chan then { st with chan_close_calls := st.chan_close_calls + 1 }
    else st
  if st1.conn then { st1 with conn_close_calls := st1.conn_close_calls + 1 }
  else st1

/-- `CommandSession.close`. -/
def session_close (key : SessionKey) (cache : Cache) (st : SSHSessionState) :
    Cache × SSHSessionState :=
  -- try: if self.key in self._ALL_SESSIONS: del self._ALL_SESSIONS[self.key]
  let cache1 := eraseKey key cache
  -- finally: inc_counter(closed); await self._close(); close _cmd_stream;
  -- self._connected = False
  let st1 := { st with closed_counter := st.closed_counter + 1 }
  let st2 := ssh_close st1
  let st3 :=
    if st2.cmd_stream then
      { st2 with stream_close_calls := st2.stream_close_calls + 1 }
    else st2
  (cache1, { st3 with connected := false })

/-- `n` successive `close()` invocations. -/
def iter_close (key : SessionKey) :
    Nat → Cache × SSHSessionState → Cache × SSHSessionState
  | 0, p => p
  | n + 1, p => iter_close key n (session_close key p.1 p.2)

theorem eraseKey_of_absent (k : SessionKey) (c : Cache)
    (h : cacheFind k c = none) : eraseKey k c = c := by
  induction c with
  | nil => rfl
  | cons p rest ih =>
    obtain ⟨k', s⟩ := p
    by_cases hk : k' = k
    · simp [cacheFind, hk] at h
    · simp only [cacheFind, hk, if_false] at h
      have hrest := ih h
      simp only [eraseKey] at hrest ⊢
      rw [List.filter_cons_of_pos (by simp [hk]), hrest]

/-- Field-level description of one `close()` call. -/
theorem session_close_state (key : SessionKey) (cache : Cache)
    (st : SSHSessionState) :
    (session_close key cache st).2 =
      { connected := false
        closed_counter := st.closed_counter + 1
        chan := st.chan
        conn := st.conn
        cmd_stream := st.cmd_stream
        chan_close_calls :=
          st.chan_close_calls + (if st.chan then 1 else 0)
        conn_close_calls :=
          st.conn_close_calls + (if st.conn then 1 else 0)
        stream_close_calls :=
          st.stream_close_calls + (if st.cmd_stream then 1 else 0) } := by
  obtain ⟨cn, cc, ch, co, cs, a, b, c⟩ := st
  cases ch <;> cases co <;> cases cs <;> simp [session_close, ssh_close]

/-- Field-level description of `n + 1` successive `close()` calls. -/
theorem iter_close_succ_state (key : SessionKey) (n : Nat)
    (p : Cache × SSHSessionState) :
    (iter_close key (n + 1) p).2 =
      { connected := false
        closed_counter := p.2.closed_counter + (n + 1)
        chan := p.2.chan
        conn := p.2.conn
        cmd_stream := p.2.cmd_stream
        chan_close_calls :=
          p.2.chan_close_calls + (if p.2.chan then n + 1 else 0)
        conn_close_calls :=
          p.2.conn_close_calls + (if p.2.conn then n + 1 else 0)
        stream_close_calls :=
          p.2.stream_close_calls + (if p.2.cmd_stream then n + 1 else 0) }
    := by
  induction n generalizing p with
  | zero => simp [iter_close, session_close_state]
  | succ m ih =>
    have step : iter_close key (m + 1 + 1) p =
        iter_close key (m + 1) (session_close key p.1 p.2) := rfl
    rw [step, ih (session_close key p.1 p.2), session_close_state]
    cases hch : p.2.chan <;> cases hco : p.2.conn <;>
      cases hcs : p.2.cmd_stream <;> simp <;> omega

/-- A fully connected session state: `_chan`, `_conn` and `_cmd_stream`
all exist, no close has happened yet. -/
def connectedSSHState : SSHSessionState := ⟨true, 0, true, true, true, 0, 0, 0⟩

/-- C4 counterexample: the claim says transport resources are released
exactly once per session, for every number of `close()` invocations; but
two `close()` calls on a session with a live channel invoke
`_chan.close()` twice (`_chan` is never cleared). -/
theorem close_releases_twice_counterexample :
    (iter_close 7 2 ([], connectedSSHState)).2.chan_close_calls = 2 ∧
      ¬ ((iter_close 7 2 ([], connectedSSHState)).2.chan_close_calls = 1) := by
  decide

/-- C4 amended: `close()` removes the key from the cache only if present
(absent key: no-op), unconditionally bumps the `closed` counter,
unconditionally runs `_close` (which closes `_chan`/`_conn` when they
exist, also when connect never completed and they are absent) and clears
`_connected` — but the transport resources are released once per
`close()` invocation, not once per session: `n` calls close the channel
`n` times. -/
theorem close_spec (key : SessionKey) (cache : Cache)
    (st : SSHSessionState) (n : Nat) (hn : 0 < n) :
    ((session_close key cache st).1 = eraseKey key cache) ∧
    (cacheFind key cache = none → (session_close key cache st).1 = cache) ∧
    ((iter_close key n (cache, st)).2.closed_counter =
      st.closed_counter + n) ∧
    (st.chan = true → (iter_close key n (cache, st)).2.chan_close_calls =
      st.chan_close_calls + n) ∧
    (st.conn = true → (iter_close key n (cache, st)).2.conn_close_calls =
      st.conn_close_calls + n) ∧
    ((iter_close key n (cache, st)).2.connected = false) ∧
    (st.chan = false →
      (iter_close key n (cache, st)).2.chan_close_calls =
        st.chan_close_calls) := by
  obtain ⟨m, rfl⟩ : ∃ m, n = m + 1 := ⟨n - 1, by omega⟩
  have hit := iter_close_succ_state key m (cache, st)
  refine ⟨rfl, ?_, ?_, ?_, ?_, ?_, ?_⟩
  · intro h
    simp [session_close, eraseKey_of_absent key cache h]
  · rw [hit]
  · intro hch
    rw [hit]
    simp [hch]
  · intro hco
    rw [hit]
    simp [hco]
  · rw [hit]
  · intro hch
    rw [hit]
    simp [hch]

/-- Witness for `close_spec` with a single close on a fully connected
session. -/
theorem close_spec_witness :
    ((session_close 7 [] connectedSSHState).1 = eraseKey 7 []) ∧
    (cacheFind 7 [] = none →
      (session_close 7 [] connectedSSHState).1 = []) ∧
    ((iter_close 7 1 ([], connectedSSHState)).2.closed_counter =
      connectedSSHState.closed_counter + 1) ∧
    (connectedSSHState.chan = true →
      (iter_close 7 1 ([], connectedSSHState)).2.chan_close_calls =
        connectedSSHState.chan_close_calls + 1) ∧
    (connectedSSHState.conn = true →
      (iter_close 7 1 ([], connectedSSHState)).2.conn_close_calls =
        connectedSSHState.conn_close_calls + 1) ∧
    ((iter_close 7 1 ([], connectedSSHState)).2.connected = false) ∧
    (connectedSSHState.chan = false →
      (iter_close 7 1 ([], connectedSSHState)).2.chan_close_calls =
        connectedSSHState.chan_close_calls) :=
  close_spec 7 [] connectedSSHState 1 (by decide)

/-! ## Readiness notification (`_notify` / `wait_for`)

`CommandSession.wait_for` blocks on an `asyncio.Condition` and its
predicate is re-evaluated exactly when `_notify` (`notify_all`) runs.
`CliCommandSession._session_connected` schedules `_notify`;
`CliCommandSession.exit_status_received` only records the status and
clears `_connected` — it does not notify.  `notify_count` counts
`_notify` invocations, i.e. predicate re-evaluation wake-ups. -/

structure CliState where
  connected : Bool
  exit_status : Option Int
  notify_count : Nat
deriving DecidableEq, Repr

/-- `CliCommandSession._session_connected` (stream reader/writer wiring
elided): marks connected and schedules `self._notify()`. -/
def session_connected (st : CliState) : CliState :=
  { st with connected := true, notify_count := st.notify_count + 1 }

/-- `CliCommandSession.exit_status_received`: records the exit status and
clears `_connected`; it does not call `_notify`. -/
def exit_status_received (status : Int) (st : CliState) : CliState :=
  { st with connected := false, exit_status := some status }

/-- C5 counterexample: receiving an exit status does not wake waiters:
no `_notify` happens, so a predicate blocked in `wait_for` is not
re-evaluated on that state change (contradicting the claim that both
events re-evaluate it). -/
theorem exit_status_no_notify_counterexample :
    ¬ ((exit_status_received 0 ⟨true, none, 0⟩).notify_count = 0 + 1) := by
  decide

/-- C5 amended: a predicate blocked in `wait_for` is re-evaluated when the
connection completes (`_session_connected` notifies), but not when an
exit status is received: `exit_status_received` records the status and
clears `_connected` without notifying, so such a waiter only returns via
its timeout. -/
theorem notify_on_connect_not_on_exit_status :
    (∀ st : CliState,
      (session_connected st).notify_count = st.notify_count + 1 ∧
      (session_connected st).connected = true) ∧
    (∀ (status : Int) (st : CliState),
      (exit_status_received status st).notify_count = st.notify_count ∧
      (exit_status_received status st).connected = false ∧
      (exit_status_received status st).exit_status = some status) :=
  ⟨fun _ => ⟨rfl, rfl⟩, fun _ _ => ⟨rfl, rfl, rfl⟩⟩

/-! ## `CommandStream._on_connect` (newline injection) -/

structure StreamState where
  buffer : Bytes
  connected : Bool
  notify_count : Nat
deriving DecidableEq, Repr

/-- `data_received`: the transport delivers bytes into the reader
buffer. -/
def data_received (st : StreamState) (d : Bytes) : StreamState :=
  { st with buffer := st.buffer ++ d }

/-- `CommandStream._on_connect`: injects `b"\n"` through
`super().data_received` and then runs `_session_connected`, which marks
the session connected and notifies waiters. -/
def on_connect (st : StreamState) : StreamState :=
  let st1 := data_received st [10]
  { st1 with connected := true, notify_count := st1.notify_count + 1 }

/-- C10: on transport connect, a single newline is injected at the front
of the stream buffer before any device data arrives and while the session
is still unconnected; afterwards the session is marked connected and
every later chunk lands after that newline. -/
theorem newline_injected_on_connect :
    ∀ d : Bytes,
      (on_connect ⟨[], false, 0⟩).buffer = [10] ∧
      (on_connect ⟨[], false, 0⟩).connected = true ∧
      (data_received (on_connect ⟨[], false, 0⟩) d).buffer = 10 :: d ∧
      (data_received ⟨[], false, 0⟩ [10]).connected = false := by
  intro d
  refine ⟨rfl, rfl, ?_, rfl⟩
  simp [data_received, on_connect]

/-! ## `CommandStreamReader` (the stream matcher)

`wait_for` tests the predicate against the current buffer, and, while it
fails, counts a retry, raises a buffer-overrun `RuntimeError` when the
buffer exceeds `_limit`, and otherwise waits for more data
(`_wait_for_data`) and re-tests.  We model the incoming data as the list
of chunks the transport will deliver; when chunks run out, the next
`_wait_for_data` either raises `AssertionError` (stream at EOF — this is
what `asyncio.StreamReader._wait_for_data` does once `feed_eof` ran) or
blocks until cancelled from outside (`pendingData`: the caller-level
timeout fires).  The quick-poll versus slow-poll distinction only affects
scheduling latency, not which data is seen, so both paths collapse to
"append the next chunk". -/

structure ReaderState where
  buffer : Bytes
  retry_count : Nat
  overrun_count : Nat
deriving DecidableEq, Repr

inductive WaitErr
  | overrun
  | assertEOF
  | pendingData
deriving DecidableEq, Repr

/-- `ResponseMatch` namedtuple.  `groupdict` is regex-engine internals not
modelled here; `match` is retained as the span of the match. -/
structure RespMatch where
  data : Bytes
  matched : Bytes
  matchSpan : Option (Nat × Nat)
deriving DecidableEq, Repr

namespace CommandStreamReader

/-- `CommandStreamReader.wait_for`. -/
def wait_for {α : Type} (pred : Bytes → Option α) (limit : Nat) (eof : Bool) :
    List Bytes → ReaderState → ReaderState × Except WaitErr α
  | chunks, st =>
    match pred st.buffer with
    | some m => (st, .ok m)
    | none =>
      -- loop body: log, count a retry
      let st1 : ReaderState := { st with retry_count := st.retry_count + 1 }
      if st1.buffer.length > limit then
        ({ st1 with overrun_count := st1.overrun_count + 1 },
          .error .overrun)
      else
        match chunks with
        | [] => (st1, .error (if eof then .assertEOF else .pendingData))
        | d :: rest =>
          wait_for pred limit eof rest { st1 with buffer := st1.buffer ++ d }

/-- `CommandStreamReader.readuntil_re`.  `search data` stands for
`regex.search(data, start)` returning the match span.  On a successful
match the matched and pre-match bytes are read out of the buffer (the
`read(m_end)` call) as independent copies; on `AssertionError` at EOF the
whole remaining buffer is returned with an empty `matched`. -/
def readuntil_re (search : Bytes → Option (Nat × Nat)) (limit : Nat)
    (eof : Bool) (chunks : List Bytes) (st : ReaderState) :
    ReaderState × Except WaitErr RespMatch :=
  match wait_for search limit eof chunks st with
  | (st1, .ok (b, e)) =>
    let rdata := st1.buffer.take e
    ({ st1 with buffer := st1.buffer.drop e },
      .ok ⟨rdata.take b, rdata.drop b, some (b, e)⟩)
  | (st1, .error .assertEOF) =>
    if eof then ({ st1 with buffer := [] }, .ok ⟨st1.buffer, [], none⟩)
    else (st1, .error .assertEOF)
  | (st1, .error e) => (st1, .error e)

/-- `CommandStreamReader.drain`: read out the whole buffer. -/
def drain (st : ReaderState) : ReaderState × Bytes :=
  ({ st with buffer := [] }, st.buffer)

/-- One failing iteration of `wait_for` with data still available:
count a retry and absorb the next chunk. -/
theorem wait_for_step {α : Type} (pred : Bytes → Option α) (limit : Nat)
    (eof : Bool) (d : Bytes) (rest : List Bytes) (st : ReaderState)
    (h0 : pred st.buffer = none) (hlim : st.buffer.length ≤ limit) :
    wait_for pred limit eof (d :: rest) st =
      wait_for pred limit eof rest
        ⟨st.buffer ++ d, st.retry_count + 1, st.overrun_count⟩ := by
  conv_lhs => rw [wait_for]
  simp [h0, Nat.not_lt.mpr hlim]

/-- Final failing iteration of `wait_for`: no data left, wait for more
(EOF assertion or pending until the caller-level timeout fires). -/
theorem wait_for_nil_step {α : Type} (pred : Bytes → Option α)
    (limit : Nat) (eof : Bool) (st : ReaderState)
    (h0 : pred st.buffer = none) (hlim : st.buffer.length ≤ limit) :
    wait_for pred limit eof [] st =
      (⟨st.buffer, st.retry_count + 1, st.overrun_count⟩,
       .error (if eof then .assertEOF else .pendingData)) := by
  rw [wait_for]
  simp [h0, Nat.not_lt.mpr hlim]

/-- Failing iteration of `wait_for` with the buffer over the limit:
count the overrun and raise. -/
theorem wait_for_over_step {α : Type} (pred : Bytes → Option α)
    (limit : Nat) (eof : Bool) (chunks : List Bytes) (st : ReaderState)
    (h0 : pred st.buffer = none) (hlim : st.buffer.length > limit) :
    wait_for pred limit eof chunks st =
      (⟨st.buffer, st.retry_count + 1, st.overrun_count + 1⟩,
       .error .overrun) := by
  rw [wait_for]
  simp [h0, hlim]

/-- If the predicate fails on the initial buffer and after every chunk,
and the buffer never exceeds the limit, `wait_for` consumes all chunks
and ends in the EOF/pending wait, retrying once per iteration. -/
theorem wait_for_exhausts {α : Type} (pred : Bytes → Option α)
    (limit : Nat) (eof : Bool) (chunks : List Bytes) (st : ReaderState)
    (hnm : ∀ j, pred (st.buffer ++ (chunks.take j).flatten) = none)
    (hlen : ∀ j, (st.buffer ++ (chunks.take j).flatten).length ≤ limit) :
    wait_for pred limit eof chunks st =
      ({ buffer := st.buffer ++ chunks.flatten,
         retry_count := st.retry_count + chunks.length + 1,
         overrun_count := st.overrun_count },
       .error (if eof then .assertEOF else .pendingData)) := by
  induction chunks generalizing st with
  | nil =>
    have h0 := hnm 0
    have l0 := hlen 0
    simp only [List.take_zero, List.flatten_nil, List.append_nil] at h0 l0
    rw [wait_for_nil_step pred limit eof st h0 l0]
    simp
  | cons d rest ih =>
    have h0 := hnm 0
    have l0 := hlen 0
    simp only [List.take_zero, List.flatten_nil, List.append_nil] at h0 l0
    have hnm' : ∀ j,
        pred ((st.buffer ++ d) ++ (rest.take j).flatten) = none := by
      intro j
      have := hnm (j + 1)
      simpa [List.take_succ_cons, List.flatten_cons, List.append_assoc]
        using this
    have hlen' : ∀ j,
        ((st.buffer ++ d) ++ (rest.take j).flatten).length ≤ limit := by
      intro j
      have := hlen (j + 1)
      simpa [List.take_succ_cons, List.flatten_cons, List.append_assoc]
        using this
    rw [wait_for_step pred limit eof d rest st h0 l0,
      ih ⟨st.buffer ++ d, st.retry_count + 1, st.overrun_count⟩ hnm' hlen']
    simp only [Prod.mk.injEq, ReaderState.mk.injEq, List.flatten_cons,
      List.append_assoc, List.length_cons]
    refine ⟨⟨trivial, by omega, trivial⟩, trivial⟩

/-- C6: if the predicate never matches while the buffer grows past the
configured hard limit (`k` is the number of chunks needed to exceed it),
`wait_for` raises the buffer-overrun error — not the timeout/pending
outcome — after incrementing the `streamreader.overrun` counter exactly
once. -/
theorem wait_for_overrun {α : Type} (pred : Bytes → Option α)
    (limit : Nat) (eof : Bool) (chunks : List Bytes) (st : ReaderState)
    (k : Nat) (hk : k ≤ chunks.length)
    (hover : (st.buffer ++ (chunks.take k).flatten).length > limit)
    (hbelow : ∀ j, j < k →
      (st.buffer ++ (chunks.take j).flatten).length ≤ limit)
    (hnm : ∀ j, j ≤ k →
      pred (st.buffer ++ (chunks.take j).flatten) = none) :
    wait_for pred limit eof chunks st =
      ({ buffer := st.buffer ++ (chunks.take k).flatten,
         retry_count := st.retry_count + k + 1,
         overrun_count := st.overrun_count + 1 },
       .error .overrun) := by
  induction k generalizing chunks st with
  | zero =>
    have h0 := hnm 0 (Nat.le_refl 0)
    simp only [List.take_zero, List.flatten_nil, List.append_nil]
      at h0 hover ⊢
    rw [wait_for_over_step pred limit eof chunks st h0 hover]
  | succ m ih =>
    cases chunks with
    | nil => simp at hk
    | cons d rest =>
      have h0 := hnm 0 (by omega)
      have l0 := hbelow 0 (by omega)
      simp only [List.take_zero, List.flatten_nil, List.append_nil] at h0 l0
      have hk' : m ≤ rest.length := by
        simp at hk
        omega
      have hover' :
          ((st.buffer ++ d) ++ (rest.take m).flatten).length > limit := by
        have := hover
        simpa [List.take_succ_cons, List.flatten_cons, List.append_assoc]
          using this
      have hbelow' : ∀ j, j < m →
          ((st.buffer ++ d) ++ (rest.take j).flatten).length ≤ limit := by
        intro j hj
        have := hbelow (j + 1) (by omega)
        simpa [List.take_succ_cons, List.flatten_cons, List.append_assoc]
          using this
      have hnm' : ∀ j, j ≤ m →
          pred ((st.buffer ++ d) ++ (rest.take j).flatten) = none := by
        intro j hj
        have := hnm (j + 1) (by omega)
        simpa [List.take_succ_cons, List.flatten_cons, List.append_assoc]
          using this
      rw [wait_for_step pred limit eof d rest st h0 l0,
        ih rest ⟨st.buffer ++ d, st.retry_count + 1, st.overrun_count⟩
          hk' hover' hbelow' hnm']
      simp only [Prod.mk.injEq, ReaderState.mk.injEq, List.take_succ_cons,
        List.flatten_cons, List.append_assoc]
      refine ⟨⟨trivial, by omega, trivial⟩, trivial⟩

/-- Witness for `wait_for_overrun`: a never-matching predicate with a
4-byte buffer against a limit of 3 overruns (and the outcome is the
overrun error, not the pending/timeout one, although `eof = false`). -/
theorem wait_for_overrun_witness :
    wait_for (fun _ => (none : Option Unit)) 3 false [[1, 1], [1, 1]]
        ⟨[], 0, 0⟩ =
      (⟨[1, 1, 1, 1], 3, 1⟩, .error .overrun) :=
  wait_for_overrun (fun _ => (none : Option Unit)) 3 false
    [[1, 1], [1, 1]] ⟨[], 0, 0⟩ 2 (by decide) (by decide)
    (by decide) (by decide)

/-- C7: when the stream hits EOF before the pattern ever matches (and the
buffer stays within the limit), `readuntil_re` returns normally with a
`ResponseMatch` whose `matched` is empty and whose `data` is the entire
remaining buffer, rather than raising. -/
theorem readuntil_re_eof_returns_remaining
    (search : Bytes → Option (Nat × Nat)) (limit : Nat)
    (chunks : List Bytes) (st : ReaderState)
    (hnm : ∀ j, search (st.buffer ++ (chunks.take j).flatten) = none)
    (hlen : ∀ j, (st.buffer ++ (chunks.take j).flatten).length ≤ limit) :
    readuntil_re search limit true chunks st =
      ({ buffer := [],
         retry_count := st.retry_count + chunks.length + 1,
         overrun_count := st.overrun_count },
       .ok ⟨st.buffer ++ chunks.flatten, [], none⟩) := by
  rw [readuntil_re, wait_for_exhausts search limit true chunks st hnm hlen]
  simp

/-- Witness for `readuntil_re_eof_returns_remaining`: a closed stream
whose buffered bytes never match yields them all back with an empty
`matched`. -/
theorem readuntil_re_eof_returns_remaining_witness :
    readuntil_re (fun _ => (none : Option (Nat × Nat))) 10 true
        [[104, 105]] ⟨[5], 0, 0⟩ =
      (⟨[], 2, 0⟩, .ok ⟨[5, 104, 105], [], none⟩) :=
  readuntil_re_eof_returns_remaining (fun _ => none) 10 [[104, 105]]
    ⟨[5], 0, 0⟩ (fun _ => rfl)
    (fun j => by cases j <;> simp)

end CommandStreamReader

/-! ## Output formatting (`_fixup_whitespace` / `_format_output`)

The two `re.sub` patterns are simple enough to compile into
byte-scanners; each scanner below reproduces the leftmost-scan semantics
of the corresponding Python pattern (verified on concrete vectors in the
`example`s further down). -/

/-- Python whitespace over byte strings (`\s` and `bytes.strip()`):
space, `\t`, `\n`, `\v`, `\f`, `\r`. -/
def isSpaceB (b : Byte) : Bool :=
  b == 32 || b == 9 || b == 10 || b == 11 || b == 12 || b == 13

/-- `[ \t]` (blank or tab), for the `([ \t]*\n)*` trailing group. -/
def isBlankB (b : Byte) : Bool := b == 32 || b == 9

/-- `re.sub(rb".\x08|\x07", b"", output)` — leftmost scan: a non-newline
byte followed by a backspace is dropped as a pair, otherwise a bell byte
is dropped, otherwise the byte is kept. -/
def stripBSBell : Bytes → Bytes
  | [] => []
  | [a] => if a == 7 then [] else [a]
  | a :: b :: rest =>
    if a != 10 && b == 8 then stripBSBell rest
    else if a == 7 then stripBSBell (b :: rest)
    else a :: stripBSBell (b :: rest)

/-- `re.sub(rb"(\r+\n)|(\n\r+)|\r", b"\n", output)` — leftmost scan with
the alternatives tried in order.  `k` counts a pending run of `\r` bytes:
if the run turns out to be followed by `\n` the whole `\r+\n` collapses to
one `\n`, otherwise each lone `\r` becomes its own `\n`.  `skip` is set
right after a literal `\n` was emitted while the scanner eats the `\r+`
of a `\n\r+` match (the replacement `\n` of a collapsed `\r+\n` is not
re-scanned, hence `skip` is not set in that case). -/
def collapseGo : Bytes → Nat → Bool → Bytes
  | [], k, _ => List.replicate k 10
  | b :: rest, k, skip =>
    if skip && b == 13 then collapseGo rest k true
    else if b == 13 then collapseGo rest (k + 1) false
    else if b == 10 then
      if k > 0 then 10 :: collapseGo rest 0 false
      else 10 :: collapseGo rest 0 true
    else List.replicate k 10 ++ b :: collapseGo rest 0 false

def collapseNewlines (xs : Bytes) : Bytes := collapseGo xs 0 false

/-- `bytes.lstrip()`. -/
def lstripB (xs : Bytes) : Bytes := xs.dropWhile isSpaceB

/-- `bytes.rstrip()`. -/
def rstripB (xs : Bytes) : Bytes := (xs.reverse.dropWhile isSpaceB).reverse

/-- `bytes.strip()`. -/
def stripB (xs : Bytes) : Bytes := rstripB (lstripB xs)

/-- `CliCommandSession._fixup_whitespace`. -/
def fixup_whitespace (output : Bytes) : Bytes :=
  stripB (collapseNewlines (stripBSBell output))

/-- `bytes.split()`: split on whitespace runs, no empty words. -/
def splitWordsGo : Bytes → Bytes → List Bytes
  | [], acc => if acc.isEmpty then [] else [acc.reverse]
  | b :: rest, acc =>
    if isSpaceB b then
      if acc.isEmpty then splitWordsGo rest []
      else acc.reverse :: splitWordsGo rest []
    else splitWordsGo rest (b :: acc)

def splitWords (xs : Bytes) : List Bytes := splitWordsGo xs []

/-- `b" ".join(words)`. -/
def joinSpace : List Bytes → Bytes
  | [] => []
  | [w] => w
  | w :: ws => w ++ 32 :: joinSpace ws

/-- Index just past the run of bytes satisfying `p` that starts at
`pos` (the greedy `\s*` / `[ \t]*` / `\s+` pieces). -/
def skipWhileFrom (p : Byte → Bool) (data : Bytes) (pos : Nat) : Nat :=
  pos + ((data.drop pos).takeWhile p).length

/-- Literal word match (the words are `re.escape`d, hence literal). -/
def matchLiteral (w : Bytes) (data : Bytes) (pos : Nat) : Option Nat :=
  if (data.drop pos).take w.length = w then some (pos + w.length)
  else none

/-- `\s+W` for each word after the first.  Since command words contain no
whitespace, the greedy skip needs no backtracking: it must consume at
least one byte and the word must follow directly. -/
def matchWordTail : List Bytes → Bytes → Nat → Option Nat
  | [], _, pos => some pos
  | w :: ws, data, pos =>
    let q := skipWhileFrom isSpaceB data pos
    if q = pos then none
    else
      match matchLiteral w data q with
      | none => none
      | some pos2 => matchWordTail ws data pos2

/-- Greedy `([ \t]*\n)*`: repeatedly consume blanks-then-newline; a
failed iteration consumes nothing.  `fuel` bounds the recursion (each
successful iteration consumes at least the newline). -/
def trailingBlankLines (data : Bytes) (pos : Nat) : Nat → Nat
  | 0 => pos
  | fuel + 1 =>
    let q := skipWhileFrom isBlankB data pos
    if data[q]? = some 10 then trailingBlankLines data (q + 1) fuel
    else pos

/-- The command regex `^\s*W1\s+W2...([ \t]*\n)*` matched at `pos` (a
line start, thanks to the `^` scan below). -/
def matchCmdAt (words : List Bytes) (data : Bytes) (pos : Nat) :
    Option Nat :=
  let p0 := skipWhileFrom isSpaceB data pos
  let afterWords :=
    match words with
    | [] => some p0
    | w :: ws =>
      match matchLiteral w data p0 with
      | none => none
      | some p1 => matchWordTail ws data p1
  afterWords.map (fun p => trailingBlankLines data p (data.length + 1))

/-- `re.M` line starts: offset 0 or just after a newline byte. -/
def isLineStart (data : Bytes) (pos : Nat) : Bool :=
  pos == 0 || data[pos - 1]? == some 10

/-- The scan loop of `re.sub`: positions are tried left to right; the
pattern is anchored by `^` so only line starts can match. -/
def findCmdFrom (words : List Bytes) (data : Bytes) :
    Nat → Nat → Option (Nat × Nat)
  | _, 0 => none
  | pos, fuel + 1 =>
    if pos > data.length then none
    else if isLineStart data pos then
      match matchCmdAt words data pos with
      | some e => some (pos, e)
      | none => findCmdFrom words data (pos + 1) fuel
    else findCmdFrom words data (pos + 1) fuel

def findCmdMatch (words : List Bytes) (data : Bytes) :
    Option (Nat × Nat) :=
  findCmdFrom words data 0 (data.length + 1)

/-- `re.sub(cmd_re, b" ".join(cmd_words) + b"\n", cmd_output, 1, re.M)`:
replace the leftmost echo of the command by its single-spaced rendering
followed by one newline. -/
def subCmdEcho (words : List Bytes) (data : Bytes) : Bytes :=
  match findCmdMatch words data with
  | some (s, e) => data.take s ++ joinSpace words ++ 10 :: data.drop e
  | none => data

/-- `CliCommandSession._format_output`. -/
def format_output (cmd : Bytes) (resp : RespMatch) : Bytes :=
  let cmd_words := splitWords cmd
  let cmd_output := subCmdEcho cmd_words (fixup_whitespace resp.data)
  stripB resp.matched ++ 32 :: cmd_output

-- Sanity vectors, checked against CPython's `re` on the same inputs.
example : fixup_whitespace (strBytes "\x0d\x0d\nX") = strBytes "X" := by
  decide
example : fixup_whitespace (strBytes "a\x0db") = strBytes "a\nb" := by
  decide
example : fixup_whitespace (strBytes "y\n\x0d\x0dx") = strBytes "y\nx" := by
  decide
example : fixup_whitespace (strBytes "ab \x08c\x07d") = strBytes "abcd" := by
  decide
example : fixup_whitespace (strBytes "a\x08\x08") = strBytes "\x08" := by
  decide
example : fixup_whitespace (strBytes "ab\x0d\x0d\x0d\ncd")
    = strBytes "ab\ncd" := by decide
example : fixup_whitespace (strBytes "  hi \x0d there \n\x0d\x0d end  ")
    = strBytes "hi \n there \n end" := by decide
example :
    format_output (strBytes "show version")
      ⟨strBytes "show version\x0d\nFCR 1.0\x0d\n", strBytes "host#", none⟩
    = strBytes "host# show version\nFCR 1.0" := by decide
example :
    format_output (strBytes "show  version")
      ⟨strBytes "  show   version\x0d\nout line\x0d\n",
        strBytes " host> ", none⟩
    = strBytes "host> show version\nout line" := by decide
example :
    format_output (strBytes "ls")
      ⟨strBytes "junk\nls\n\t\n  \nfile1\n", strBytes "#", none⟩
    = strBytes "# junk\nls\nfile1" := by decide
example :
    format_output (strBytes "ls")
      ⟨strBytes "ls\n \nfile \n", strBytes "#", none⟩
    = strBytes "# ls\nfile" := by decide

/-! ## Command execution pipeline (`CliCommandSession._run_command`) -/

/-- `bytes.splitlines()`: split on `\n`, `\r` and `\r\n`; no trailing
empty line. -/
def splitlinesGo : Bytes → Bytes → List Bytes
  | [], acc => if acc.isEmpty then [] else [acc.reverse]
  | 13 :: 10 :: rest, acc => acc.reverse :: splitlinesGo rest []
  | 13 :: rest, acc => acc.reverse :: splitlinesGo rest []
  | 10 :: rest, acc => acc.reverse :: splitlinesGo rest []
  | b :: rest, acc => splitlinesGo rest (b :: acc)

def splitlines (xs : Bytes) : List Bytes := splitlinesGo xs []

example : splitlines (strBytes "a\nbc\nd") = [[97], [98, 99], [100]] := by
  decide
example : splitlines (strBytes "a\x0d\nb\x0d") = [[97], [98]] := by decide
example : splitlines (strBytes "show version") =
    [strBytes "show version"] := by decide

/-- What `devinfo.get_command_info` supplies per command: control bytes
to send first (`precmd`, skipped when empty/falsy) and the literal
command bytes to write.  The per-command prompt pattern is abstracted
into `CmdOutcome` below. -/
structure CmdInfo where
  precmd : Bytes
  cmd : Bytes
deriving DecidableEq, Repr

/-- The device's behavior for one command of an invocation: either a
prompt match arrives in time, or the per-command `asyncio.wait_for`
times out with the given bytes sitting in the reader buffer. -/
inductive CmdOutcome
  | ok (resp : RespMatch)
  | timeout (bufferAtTimeout : Bytes)
deriving DecidableEq, Repr

def CmdOutcome.isOk : CmdOutcome → Bool
  | .ok _ => true
  | .timeout _ => false

/-- Session state visible to `_run_command`: the connected flag, the
stream reader buffer, the writes issued on the stream writer (in order)
and how many times the pipeline closed the session (it never does; the
field records that fact). -/
structure PipeState where
  connected : Bool
  buffer : Bytes
  sent : List Bytes
  close_calls : Nat
deriving DecidableEq, Repr

inductive PipeErr
  | notConnected
  | commandTimeout (tail : Bytes)
deriving DecidableEq, Repr

/-- Python `data[-n:]`. -/
def takeLast (n : Nat) (xs : Bytes) : Bytes := xs.drop (xs.length - n)

/-- `b"\n".join(output)`. -/
def joinLF : List Bytes → Bytes
  | [] => []
  | [x] => x
  | x :: rest => x ++ 10 :: joinLF rest

/-- The per-command loop of `_run_command`.  `getInfo` models
`devinfo.get_command_info`; `outcomes i` is the device's behavior for
the `i`-th command sent in this invocation.  On `asyncio.TimeoutError`
the reader buffer is drained and a `RuntimeError` carrying its last 200
bytes is raised; the remaining commands are not sent. -/
def runCmdsGo (getInfo : Bytes → CmdInfo) (outcomes : Nat → CmdOutcome) :
    List Bytes → Nat → PipeState → List Bytes →
      PipeState × Except PipeErr (List Bytes)
  | [], _, st, out => (st, .ok out.reverse)
  | command :: rest, i, st, out =>
    let info := getInfo command
    -- if cmdinfo.precmd: self._stream_writer.write(cmdinfo.precmd)
    let st1 : PipeState :=
      if info.precmd.isEmpty then st
      else { st with sent := st.sent ++ [info.precmd] }
    -- self._stream_writer.write(cmdinfo.cmd)
    let st2 : PipeState := { st1 with sent := st1.sent ++ [info.cmd] }
    match outcomes i with
    | .ok resp =>
      runCmdsGo getInfo outcomes rest (i + 1) st2
        (format_output command resp :: out)
    | .timeout buf =>
      ({ st2 with buffer := [] },
        .error (.commandTimeout (takeLast 200 buf)))

/-- `CliCommandSession._run_command`. -/
def cli_run_command (getInfo : Bytes → CmdInfo)
    (outcomes : Nat → CmdOutcome) (cmd : Bytes) (st : PipeState) :
    PipeState × Except PipeErr Bytes :=
  if st.connected = false then (st, .error .notConnected)
  else
    -- drain stale data first (logged as a warning when non-empty)
    let st0 : PipeState := { st with buffer := [] }
    match runCmdsGo getInfo outcomes (splitlines cmd) 0 st0 [] with
    | (st1, .ok outs) => (st1, .ok (rstripB (joinLF outs)))
    | (st1, .error e) => (st1, .error e)

/-- The writes `_run_command` issues for one command. -/
def sendsFor (getInfo : Bytes → CmdInfo) (command : Bytes) : List Bytes :=
  (if (getInfo command).precmd.isEmpty then []
   else [(getInfo command).precmd]) ++ [(getInfo command).cmd]

/-- The writes issued for a list of commands. -/
def sendsForAll (getInfo : Bytes → CmdInfo) (cmds : List Bytes) :
    List Bytes :=
  (cmds.map (sendsFor getInfo)).flatten

/-! ## Lemmas about the formatting scanners -/

/-- `stripBSBell` is the identity on bell/backspace-free data. -/
theorem stripBSBell_id : ∀ xs : Bytes, (∀ b ∈ xs, b ≠ 7 ∧ b ≠ 8) →
    stripBSBell xs = xs := by
  intro xs
  induction xs with
  | nil => intro _; rfl
  | cons a rest ih =>
    intro h
    have ha := h a (by simp)
    cases rest with
    | nil => simp [stripBSBell, ha.1]
    | cons b rest2 =>
      have hb := h b (by simp)
      have hrec := ih (fun c hc => h c (List.mem_cons_of_mem a hc))
      rw [stripBSBell, if_neg (by simp [hb.2]), if_neg (by simp [ha.1]),
        hrec]

/-- `collapseGo` passes a newline/carriage-return-free prefix through. -/
theorem collapseGo_passthrough : ∀ (w rest : Bytes),
    (∀ b ∈ w, b ≠ 13 ∧ b ≠ 10) →
    collapseGo (w ++ rest) 0 false = w ++ collapseGo rest 0 false := by
  intro w
  induction w with
  | nil => intro rest _; rfl
  | cons a w' ih =>
    intro rest h
    have ha := h a (by simp)
    have hrec := ih rest (fun c hc => h c (List.mem_cons_of_mem a hc))
    rw [List.cons_append, collapseGo]
    simp [ha.1, ha.2, hrec]

/-- A carriage-return-free payload followed by `\r\n` collapses to the
payload followed by `\n` (in any skip mode). -/
theorem collapseGo_suffix_crlf : ∀ (out : Bytes), 13 ∉ out →
    ∀ skip : Bool, collapseGo (out ++ [13, 10]) 0 skip = out ++ [10] := by
  intro out
  induction out with
  | nil =>
    intro _ skip
    cases skip <;> decide
  | cons b rest ih =>
    intro h13 skip
    have hb13 : b ≠ 13 := by
      intro he
      exact h13 (by simp [he])
    have hrec := ih (fun hc => h13 (List.mem_cons_of_mem b hc))
    by_cases hb10 : b = 10
    · subst hb10
      rw [List.cons_append, collapseGo]
      simp [hb13, hrec]
    · rw [List.cons_append, collapseGo]
      simp [hb13, hb10, hrec]

theorem lstripB_cons_of_ne (a : Byte) (xs : Bytes)
    (h : isSpaceB a = false) : lstripB (a :: xs) = a :: xs := by
  simp [lstripB, List.dropWhile_cons, h]

theorem rstripB_append_ws (xs : Bytes) (b : Byte)
    (h : isSpaceB b = true) : rstripB (xs ++ [b]) = rstripB xs := by
  simp [rstripB, List.dropWhile_cons, h]

theorem rstripB_of_getLast (xs : Bytes) (b : Byte)
    (h : xs.getLast? = some b) (hb : isSpaceB b = false) :
    rstripB xs = xs := by
  have hh : xs.reverse.head? = some b := by
    rw [List.head?_reverse]
    exact h
  have hdw : xs.reverse.dropWhile isSpaceB = xs.reverse := by
    cases hxr : xs.reverse with
    | nil => rfl
    | cons c cr =>
      rw [hxr] at hh
      have hcb : c = b := by injection hh
      subst hcb
      simp [List.dropWhile_cons, hb]
  simp [rstripB, hdw]

/-- `_fixup_whitespace` on a clean echoed command line: the `\r\n` after
the echo and after the payload collapse to `\n`, and the final `\n` is
stripped. -/
theorem fixup_whitespace_echo (echo out : Bytes)
    (heCtrl : ∀ b ∈ echo, b ≠ 7 ∧ b ≠ 8)
    (heCL : ∀ b ∈ echo, b ≠ 13 ∧ b ≠ 10)
    (e0 : Byte) (etl : Bytes) (heCons : echo = e0 :: etl)
    (heHead : isSpaceB e0 = false)
    (ho7 : 7 ∉ out) (ho8 : 8 ∉ out) (ho13 : 13 ∉ out)
    (hoNe : out ≠ [])
    (b : Byte) (hoLastEq : out.getLast? = some b)
    (hoLast : isSpaceB b = false) :
    fixup_whitespace (echo ++ [13, 10] ++ (out ++ [13, 10])) =
      echo ++ 10 :: out := by
  have hbs : stripBSBell (echo ++ [13, 10] ++ (out ++ [13, 10])) =
      echo ++ [13, 10] ++ (out ++ [13, 10]) := by
    apply stripBSBell_id
    intro c hc
    constructor
    · intro he
      subst he
      rcases List.mem_append.mp hc with h1 | h2
      · rcases List.mem_append.mp h1 with h3 | h4
        · exact (heCtrl 7 h3).1 rfl
        · simp at h4
      · rcases List.mem_append.mp h2 with h3 | h4
        · exact ho7 h3
        · simp at h4
    · intro he
      subst he
      rcases List.mem_append.mp hc with h1 | h2
      · rcases List.mem_append.mp h1 with h3 | h4
        · exact (heCtrl 8 h3).2 rfl
        · simp at h4
      · rcases List.mem_append.mp h2 with h3 | h4
        · exact ho8 h3
        · simp at h4
  have hcoll : collapseNewlines (echo ++ [13, 10] ++ (out ++ [13, 10])) =
      echo ++ 10 :: (out ++ [10]) := by
    have h1 : collapseGo (13 :: 10 :: (out ++ [13, 10])) 0 false =
        10 :: (out ++ [10]) := by
      simp [collapseGo, collapseGo_suffix_crlf out ho13 false]
    rw [collapseNewlines, List.append_assoc, collapseGo_passthrough echo _ heCL]
    simp only [List.cons_append, List.nil_append] at h1 ⊢
    rw [h1]
  rw [fixup_whitespace, hbs, hcoll, stripB]
  rw [heCons, List.cons_append, lstripB_cons_of_ne e0 _ heHead,
    ← List.cons_append, ← heCons]
  have hassoc : echo ++ 10 :: (out ++ [10]) =
      (echo ++ 10 :: out) ++ [10] := by simp
  rw [hassoc, rstripB_append_ws _ 10 (by decide)]
  refine rstripB_of_getLast _ b ?_ hoLast
  rw [List.getLast?_append_of_ne_nil echo (by simp)]
  rw [show (10 : Byte) :: out = [10] ++ out from rfl,
    List.getLast?_append_of_ne_nil [10] hoNe]
  exact hoLastEq

/-! ## Lemmas about the echo substitution -/

/-- The single-space-separated rendering of the words after the first. -/
def sepWords (ws : List Bytes) : Bytes :=
  (ws.map (fun w => 32 :: w)).flatten

theorem sepWords_cons (w : Bytes) (ws : List Bytes) :
    sepWords (w :: ws) = 32 :: (w ++ sepWords ws) := by
  simp [sepWords]

theorem joinSpace_cons_eq (w : Bytes) (ws : List Bytes) :
    joinSpace (w :: ws) = w ++ sepWords ws := by
  induction ws generalizing w with
  | nil => simp [joinSpace, sepWords]
  | cons x ws' ih =>
    rw [show joinSpace (w :: x :: ws') = w ++ 32 :: joinSpace (x :: ws')
      from rfl]
    rw [ih x, sepWords_cons]

theorem skipWhileFrom_one (p : Byte → Bool) (l : Bytes) (c : Byte)
    (m : Bytes) (hc : p c = true) (hm : m.takeWhile p = []) :
    skipWhileFrom p (l ++ c :: m) l.length = l.length + 1 := by
  have h := List.drop_left l (c :: m)
  simp [skipWhileFrom, h, List.takeWhile_cons, hc, hm]

theorem matchLiteral_exact (w l m : Bytes) :
    matchLiteral w (l ++ (w ++ m)) l.length =
      some (l.length + w.length) := by
  have hdrop := List.drop_left l (w ++ m)
  simp [matchLiteral, hdrop, List.take_left]

/-- `matchWordTail` consumes exactly the single-space-separated trailing
words when each word is nonempty with a non-whitespace head. -/
theorem matchWordTail_exact : ∀ (ws : List Bytes) (l tail : Bytes),
    (∀ u ∈ ws, u ≠ [] ∧ u.head?.all (fun c => !isSpaceB c) = true) →
    matchWordTail ws (l ++ (sepWords ws ++ tail)) l.length =
      some (l.length + (sepWords ws).length) := by
  intro ws
  induction ws with
  | nil =>
    intro l tail _
    simp [matchWordTail, sepWords]
  | cons w ws' ih =>
    intro l tail hws
    obtain ⟨hwne, hwhead⟩ := hws w (by simp)
    obtain ⟨c, cs, rfl⟩ := List.exists_cons_of_ne_nil hwne
    have hc : isSpaceB c = false := by simpa using hwhead
    have hdata : l ++ (sepWords ((c :: cs) :: ws') ++ tail) =
        l ++ 32 :: ((c :: cs) ++ (sepWords ws' ++ tail)) := by
      rw [sepWords_cons]
      simp
    rw [hdata, matchWordTail]
    have hq : skipWhileFrom isSpaceB
        (l ++ 32 :: ((c :: cs) ++ (sepWords ws' ++ tail))) l.length =
        l.length + 1 := by
      apply skipWhileFrom_one isSpaceB l 32 _ (by decide)
      simp [List.takeWhile_cons, hc]
    rw [hq, if_neg (by omega)]
    have hlit : matchLiteral (c :: cs)
        (l ++ 32 :: ((c :: cs) ++ (sepWords ws' ++ tail)))
        (l.length + 1) = some (l.length + 1 + (c :: cs).length) := by
      have h32 : l ++ 32 :: ((c :: cs) ++ (sepWords ws' ++ tail)) =
          (l ++ [32]) ++ ((c :: cs) ++ (sepWords ws' ++ tail)) := by simp
      have hlen : l.length + 1 = (l ++ [32]).length := by simp
      rw [h32, hlen]
      exact matchLiteral_exact (c :: cs) (l ++ [32])
        (sepWords ws' ++ tail)
    rw [hlit]
    dsimp only
    have hrec := ih (l ++ 32 :: (c :: cs)) tail
      (fun u hu => hws u (by simp [hu]))
    have hshape : (l ++ 32 :: (c :: cs)) ++ (sepWords ws' ++ tail) =
        l ++ 32 :: ((c :: cs) ++ (sepWords ws' ++ tail)) := by simp
    have hlen2 : (l ++ 32 :: (c :: cs)).length =
        l.length + 1 + (c :: cs).length := by
      simp
      omega
    rw [hshape, hlen2] at hrec
    rw [hrec, sepWords_cons]
    simp only [List.length_cons, List.length_append]
    congr 1
    omega

theorem trailingBlankLines_stop (data : Bytes) (pos : Nat) (fuel : Nat)
    (h : ¬ data[skipWhileFrom isBlankB data pos]? = some 10) :
    trailingBlankLines data pos fuel = pos := by
  cases fuel with
  | zero => rfl
  | succ f =>
    rw [trailingBlankLines]
    rw [if_neg h]

theorem trailingBlankLines_newline (data out : Bytes) (pos fuel : Nat)
    (hdrop : data.drop pos = 10 :: out)
    (htw : out.takeWhile isBlankB = [])
    (hh : ¬ out.head? = some 10) :
    trailingBlankLines data pos (fuel + 2) = pos + 1 := by
  have hq : skipWhileFrom isBlankB data pos = pos := by
    simp [skipWhileFrom, hdrop, List.takeWhile_cons, isBlankB]
  have hgp : data[pos]? = some 10 := by
    rw [← List.head?_drop, hdrop]
    rfl
  have hdrop1 : data.drop (pos + 1) = out := by
    have h1 : (data.drop pos).drop 1 = data.drop (pos + 1) :=
      List.drop_drop 1 pos data
    rw [← h1, hdrop]
    rfl
  have hq1 : skipWhileFrom isBlankB data (pos + 1) = pos + 1 := by
    simp [skipWhileFrom, hdrop1, htw]
  have hgp1 : ¬ data[pos + 1]? = some 10 := by
    rw [← List.head?_drop, hdrop1]
    exact hh
  rw [trailingBlankLines]
  rw [hq, if_pos hgp]
  exact trailingBlankLines_stop data (pos + 1) (fuel + 1)
    (by rw [hq1]; exact hgp1)

/-- The command regex matches the normalized echo line exactly, from
position 0, consuming the echo and its newline. -/
theorem matchCmdAt_exact (w0 : Bytes) (ws : List Bytes) (out : Bytes)
    (hws : ∀ u ∈ w0 :: ws,
      u ≠ [] ∧ u.head?.all (fun c => !isSpaceB c) = true)
    (htw : out.takeWhile isBlankB = [])
    (hh : ¬ out.head? = some 10) :
    matchCmdAt (w0 :: ws) (joinSpace (w0 :: ws) ++ 10 :: out) 0 =
      some ((joinSpace (w0 :: ws)).length + 1) := by
  obtain ⟨h0ne, h0head⟩ := hws w0 (by simp)
  obtain ⟨c, cs, rfl⟩ := List.exists_cons_of_ne_nil h0ne
  have hc : isSpaceB c = false := by simpa using h0head
  have hdata2 : joinSpace ((c :: cs) :: ws) ++ 10 :: out =
      (c :: cs) ++ (sepWords ws ++ (10 :: out)) := by
    rw [joinSpace_cons_eq]
    simp
  have hp0 : skipWhileFrom isSpaceB
      (joinSpace ((c :: cs) :: ws) ++ 10 :: out) 0 = 0 := by
    have htk : (joinSpace ((c :: cs) :: ws) ++ 10 :: out).takeWhile
        isSpaceB = [] := by
      rw [hdata2]
      simp [List.takeWhile_cons, hc]
    simp [skipWhileFrom, htk]
  have hlit : matchLiteral (c :: cs)
      (joinSpace ((c :: cs) :: ws) ++ 10 :: out) 0 =
      some (c :: cs).length := by
    have h := matchLiteral_exact (c :: cs) [] (sepWords ws ++ (10 :: out))
    simpa [hdata2] using h
  have htail := matchWordTail_exact ws (c :: cs) (10 :: out)
    (fun u hu => hws u (by simp [hu]))
  rw [← hdata2] at htail
  have hWlen : (c :: cs).length + (sepWords ws).length =
      (joinSpace ((c :: cs) :: ws)).length := by
    rw [joinSpace_cons_eq]
    simp
    omega
  have hdropW : (joinSpace ((c :: cs) :: ws) ++ 10 :: out).drop
      (joinSpace ((c :: cs) :: ws)).length = 10 :: out :=
    List.drop_left _ _
  have htb : trailingBlankLines (joinSpace ((c :: cs) :: ws) ++ 10 :: out)
      (joinSpace ((c :: cs) :: ws)).length
      ((joinSpace ((c :: cs) :: ws) ++ 10 :: out).length + 1) =
      (joinSpace ((c :: cs) :: ws)).length + 1 := by
    have hlen : (joinSpace ((c :: cs) :: ws) ++ 10 :: out).length + 1 =
        ((joinSpace ((c :: cs) :: ws)).length + out.length) + 2 := by
      simp
      omega
    rw [hlen]
    exact trailingBlankLines_newline _ out _ _ hdropW htw hh
  rw [matchCmdAt]
  rw [hp0, hlit]
  dsimp only
  rw [htail, hWlen]
  have htb' : trailingBlankLines (joinSpace ((c :: cs) :: ws) ++ 10 :: out)
      (joinSpace ((c :: cs) :: ws)).length
      ((joinSpace ((c :: cs) :: ws)).length + (out.length + 1) + 1) =
      (joinSpace ((c :: cs) :: ws)).length + 1 := by
    have hfe : (joinSpace ((c :: cs) :: ws)).length + (out.length + 1) + 1 =
        (joinSpace ((c :: cs) :: ws) ++ 10 :: out).length + 1 := by
      simp
    rw [hfe]
    exact htb
  simp [htb']

/-- `re.sub` replaces the leftmost echo — here the echo is already
normalized, so the substitution is the identity. -/
theorem subCmdEcho_exact (w0 : Bytes) (ws : List Bytes) (out : Bytes)
    (hws : ∀ u ∈ w0 :: ws,
      u ≠ [] ∧ u.head?.all (fun c => !isSpaceB c) = true)
    (htw : out.takeWhile isBlankB = [])
    (hh : ¬ out.head? = some 10) :
    subCmdEcho (w0 :: ws) (joinSpace (w0 :: ws) ++ 10 :: out) =
      joinSpace (w0 :: ws) ++ 10 :: out := by
  have hm := matchCmdAt_exact w0 ws out hws htw hh
  have hfind : findCmdMatch (w0 :: ws)
      (joinSpace (w0 :: ws) ++ 10 :: out) =
      some (0, (joinSpace (w0 :: ws)).length + 1) := by
    rw [findCmdMatch, findCmdFrom]
    rw [if_neg (by omega), if_pos (by simp [isLineStart]), hm]
  have hdrop : (joinSpace (w0 :: ws) ++ 10 :: out).drop
      ((joinSpace (w0 :: ws)).length + 1) = out := by
    have h1 : joinSpace (w0 :: ws) ++ 10 :: out =
        (joinSpace (w0 :: ws) ++ [10]) ++ out := by simp
    have h2 : (joinSpace (w0 :: ws)).length + 1 =
        (joinSpace (w0 :: ws) ++ [10]).length := by simp
    rw [h1, h2, List.drop_left]
  rw [subCmdEcho, hfind]
  simp [hdrop]

/-! ## Pipeline theorems -/

theorem sendsForAll_cons (getInfo : Bytes → CmdInfo) (c : Bytes)
    (l : List Bytes) :
    sendsForAll getInfo (c :: l) =
      sendsFor getInfo c ++ sendsForAll getInfo l := by
  simp [sendsForAll]

/-- One successful iteration of the `_run_command` loop: issue the
writes for the command, format the response, move to the next command. -/
theorem runCmdsGo_cons_ok (getInfo : Bytes → CmdInfo)
    (outcomes : Nat → CmdOutcome) (c : Bytes) (rest : List Bytes)
    (i : Nat) (st : PipeState) (out : List Bytes) (r : RespMatch)
    (hoc : outcomes i = .ok r) :
    runCmdsGo getInfo outcomes (c :: rest) i st out =
      runCmdsGo getInfo outcomes rest (i + 1)
        ⟨st.connected, st.buffer, st.sent ++ sendsFor getInfo c,
          st.close_calls⟩
        (format_output c r :: out) := by
  rw [runCmdsGo, hoc]
  by_cases hp : (getInfo c).precmd.isEmpty
  · have hpe : (getInfo c).precmd = [] := by simpa using hp
    simp [hp, sendsFor, hpe]
  · simp [hp, sendsFor, List.append_assoc]

/-- A timed-out iteration of the `_run_command` loop: the writes for the
command were already issued, the buffer is drained and the error carries
its last 200 bytes. -/
theorem runCmdsGo_cons_timeout (getInfo : Bytes → CmdInfo)
    (outcomes : Nat → CmdOutcome) (c : Bytes) (rest : List Bytes)
    (i : Nat) (st : PipeState) (out : List Bytes) (buf : Bytes)
    (hoc : outcomes i = .timeout buf) :
    runCmdsGo getInfo outcomes (c :: rest) i st out =
      (⟨st.connected, [], st.sent ++ sendsFor getInfo c,
        st.close_calls⟩,
       .error (.commandTimeout (takeLast 200 buf))) := by
  rw [runCmdsGo, hoc]
  by_cases hp : (getInfo c).precmd.isEmpty
  · have hpe : (getInfo c).precmd = [] := by simpa using hp
    simp [hp, sendsFor, hpe]
  · simp [hp, sendsFor, List.append_assoc]

/-- The loop of `_run_command` on a timeout at the `i`-th command (the
commands before it succeeded): the writes for commands `0..i` are
issued and no later ones, the buffer is drained, the raised error
carries the last 200 bytes of the buffer at timeout, and the connected
flag and close count are untouched. -/
theorem runCmdsGo_timeout (getInfo : Bytes → CmdInfo)
    (outcomes : Nat → CmdOutcome) :
    ∀ (i : Nat) (cmds : List Bytes) (b : Nat) (st : PipeState)
      (out : List Bytes) (buf : Bytes),
      i < cmds.length →
      (∀ j, j < i → (outcomes (b + j)).isOk = true) →
      outcomes (b + i) = .timeout buf →
      runCmdsGo getInfo outcomes cmds b st out =
        (⟨st.connected, [],
          st.sent ++ sendsForAll getInfo (cmds.take (i + 1)),
          st.close_calls⟩,
         .error (.commandTimeout (takeLast 200 buf))) := by
  intro i
  induction i with
  | zero =>
    intro cmds b st out buf hi hok ht
    cases cmds with
    | nil => simp at hi
    | cons c rest =>
      rw [Nat.add_zero] at ht
      rw [runCmdsGo_cons_timeout getInfo outcomes c rest b st out buf ht]
      simp [sendsForAll_cons, sendsForAll, List.take_succ_cons]
  | succ m ih =>
    intro cmds b st out buf hi hok ht
    cases cmds with
    | nil => simp at hi
    | cons c rest =>
      have h0 : (outcomes b).isOk = true := by
        have := hok 0 (by omega)
        rwa [Nat.add_zero] at this
      cases hoc : outcomes b with
      | timeout tb =>
        rw [hoc] at h0
        simp [CmdOutcome.isOk] at h0
      | ok r =>
        have hokS : ∀ j, j < m → (outcomes (b + 1 + j)).isOk = true := by
          intro j hj
          have := hok (j + 1) (by omega)
          rwa [show b + (j + 1) = b + 1 + j by omega] at this
        have htS : outcomes (b + 1 + m) = .timeout buf := by
          rwa [show b + 1 + m = b + (m + 1) by omega]
        have hiS : m < rest.length := by
          simp at hi
          omega
        rw [runCmdsGo_cons_ok getInfo outcomes c rest b st out r hoc]
        rw [ih rest (b + 1)
          ⟨st.connected, st.buffer, st.sent ++ sendsFor getInfo c,
            st.close_calls⟩
          (format_output c r :: out) buf hiS hokS htS]
        simp [sendsForAll_cons, List.take_succ_cons, List.append_assoc]

/-- C8: in a multi-line `run_command` invocation, if waiting for the
response of command `i` times out, the pipeline raises an error carrying
the last 200 bytes of the drained buffer, no command after `i` is sent
(exactly the writes for commands `0..i` were issued), and the pipeline
does not close the session (connected flag and close count unchanged). -/
theorem run_command_timeout_aborts (getInfo : Bytes → CmdInfo)
    (outcomes : Nat → CmdOutcome) (cmd : Bytes) (st : PipeState)
    (i : Nat) (buf : Bytes)
    (hc : st.connected = true)
    (hi : i < (splitlines cmd).length)
    (hok : ∀ j, j < i → (outcomes j).isOk = true)
    (ht : outcomes i = .timeout buf) :
    cli_run_command getInfo outcomes cmd st =
      (⟨st.connected, [],
        st.sent ++ sendsForAll getInfo ((splitlines cmd).take (i + 1)),
        st.close_calls⟩,
       .error (.commandTimeout (takeLast 200 buf))) := by
  rw [cli_run_command]
  rw [if_neg (by rw [hc]; simp)]
  dsimp only
  have h := runCmdsGo_timeout getInfo outcomes i (splitlines cmd) 0
    ⟨st.connected, [], st.sent, st.close_calls⟩ [] buf hi
    (fun j hj => by simpa using hok j hj) (by simpa using ht)
  dsimp only at h
  rw [h]

/-- Witness for `run_command_timeout_aborts`: of three commands, the
second times out; only the first two are ever written, the error carries
the buffer tail, and the session is left open. -/
theorem run_command_timeout_aborts_witness :
    cli_run_command (fun c => ⟨[], c ++ [10]⟩)
        (fun j => if j = 0 then .ok ⟨[], [], none⟩
                  else .timeout [1, 2, 3])
        (strBytes "a\nb\nc") ⟨true, [7], [], 0⟩ =
      (⟨true, [], [[97, 10], [98, 10]], 0⟩,
       .error (.commandTimeout [1, 2, 3])) :=
  run_command_timeout_aborts (fun c => ⟨[], c ++ [10]⟩)
    (fun j => if j = 0 then .ok ⟨[], [], none⟩ else .timeout [1, 2, 3])
    (strBytes "a\nb\nc") ⟨true, [7], [], 0⟩ 1 [1, 2, 3]
    rfl (by decide) (by decide) (by decide)

/-! ## The `run("show version")` round trip -/

theorem isBlankB_false_of (b : Byte) (h : isSpaceB b = false) :
    isBlankB b = false := by
  have h32 : b ≠ 32 := by
    intro he
    subst he
    simp [isSpaceB] at h
  have h9 : b ≠ 9 := by
    intro he
    subst he
    simp [isSpaceB] at h
  simp [isBlankB, h32, h9]

/-- C9: against a transport that echoes the command, then the output,
then the prompt — `"show version\r\n<output>\r\nhost#"` — formatting
strips the control artifacts, collapses the line endings to `\n`,
replaces the echoed command by its single-spaced words, prepends the
stripped prompt, and `run("show version")` returns
`"host# show version\n<output>"`.  `out` stands for `<output>`, any
bell/backspace/`\r`-free payload with non-whitespace first and last
bytes. -/
theorem format_show_version_roundtrip (out : Bytes)
    (ho7 : 7 ∉ out) (ho8 : 8 ∉ out) (ho13 : 13 ∉ out)
    (hoNe : out ≠ [])
    (b0 : Byte) (hoHeadEq : out.head? = some b0)
    (hoHead : isSpaceB b0 = false)
    (bl : Byte) (hoLastEq : out.getLast? = some bl)
    (hoLast : isSpaceB bl = false) :
    format_output (strBytes "show version")
        ⟨strBytes "show version" ++ [13, 10] ++ (out ++ [13, 10]),
          strBytes "host#", none⟩
      = strBytes "host# show version" ++ 10 :: out ∧
    cli_run_command (fun c => ⟨[], c ++ [10]⟩)
        (fun _ => .ok ⟨strBytes "show version" ++ [13, 10] ++
            (out ++ [13, 10]), strBytes "host#", none⟩)
        (strBytes "show version") ⟨true, [], [], 0⟩
      = (⟨true, [], [strBytes "show version" ++ [10]], 0⟩,
         .ok (strBytes "host# show version" ++ 10 :: out)) := by
  have htw : out.takeWhile isBlankB = [] := by
    cases out with
    | nil => rfl
    | cons c cr =>
      have hc : c = b0 := by
        simp only [List.head?_cons, Option.some.injEq] at hoHeadEq
        exact hoHeadEq
      subst hc
      simp [List.takeWhile_cons, isBlankB_false_of _ hoHead]
  have hh : ¬ out.head? = some 10 := by
    rw [hoHeadEq]
    intro he
    have hb : b0 = 10 := by injection he
    rw [hb] at hoHead
    exact absurd hoHead (by decide)
  have hfix : fixup_whitespace
      (strBytes "show version" ++ [13, 10] ++ (out ++ [13, 10])) =
      strBytes "show version" ++ 10 :: out :=
    fixup_whitespace_echo (strBytes "show version") out
      (by decide) (by decide) 115
      [104, 111, 119, 32, 118, 101, 114, 115, 105, 111, 110]
      (by decide) (by decide) ho7 ho8 ho13 hoNe bl hoLastEq hoLast
  have hwords : splitWords (strBytes "show version") =
      [strBytes "show", strBytes "version"] := by decide
  have hjoin : joinSpace [strBytes "show", strBytes "version"] =
      strBytes "show version" := by decide
  have hsub : subCmdEcho [strBytes "show", strBytes "version"]
      (strBytes "show version" ++ 10 :: out) =
      strBytes "show version" ++ 10 :: out := by
    have h := subCmdEcho_exact (strBytes "show") [strBytes "version"]
      out (by decide) htw hh
    rwa [hjoin] at h
  have hpart1 : format_output (strBytes "show version")
      ⟨strBytes "show version" ++ [13, 10] ++ (out ++ [13, 10]),
        strBytes "host#", none⟩
      = strBytes "host# show version" ++ 10 :: out := by
    simp only [format_output]
    rw [hwords, hfix, hsub]
    rw [show stripB (strBytes "host#") = strBytes "host#" by decide]
    rw [show strBytes "host#" = [104, 111, 115, 116, 35] by decide,
      show strBytes "show version" =
        [115, 104, 111, 119, 32, 118, 101, 114, 115, 105, 111, 110]
        by decide,
      show strBytes "host# show version" =
        [104, 111, 115, 116, 35, 32, 115, 104, 111, 119, 32, 118, 101,
          114, 115, 105, 111, 110] by decide]
    simp
  have hrs : rstripB (strBytes "host# show version" ++ 10 :: out) =
      strBytes "host# show version" ++ 10 :: out := by
    refine rstripB_of_getLast _ bl ?_ hoLast
    rw [List.getLast?_append_of_ne_nil _ (by simp)]
    rw [show (10 : Byte) :: out = [10] ++ out from rfl,
      List.getLast?_append_of_ne_nil [10] hoNe]
    exact hoLastEq
  refine ⟨hpart1, ?_⟩
  rw [cli_run_command, if_neg (by simp)]
  dsimp only
  rw [show splitlines (strBytes "show version") =
    [strBytes "show version"] by decide]
  rw [runCmdsGo_cons_ok _ _ _ _ _ _ _ _ rfl]
  rw [runCmdsGo]
  dsimp only
  rw [hpart1]
  rw [show List.reverse [strBytes "host# show version" ++ 10 :: out] =
    [strBytes "host# show version" ++ 10 :: out] from by simp]
  rw [show joinLF [strBytes "host# show version" ++ 10 :: out] =
    strBytes "host# show version" ++ 10 :: out from rfl]
  rw [hrs]
  rfl

/-- Witness for `format_show_version_roundtrip` with
`<output> = "FCR 1.0"`. -/
theorem format_show_version_roundtrip_witness :
    format_output (strBytes "show version")
        ⟨strBytes "show version" ++ [13, 10] ++
            (strBytes "FCR 1.0" ++ [13, 10]),
          strBytes "host#", none⟩
      = strBytes "host# show version" ++ 10 :: strBytes "FCR 1.0" ∧
    cli_run_command (fun c => ⟨[], c ++ [10]⟩)
        (fun _ => .ok ⟨strBytes "show version" ++ [13, 10] ++
            (strBytes "FCR 1.0" ++ [13, 10]), strBytes "host#", none⟩)
        (strBytes "show version") ⟨true, [], [], 0⟩
      = (⟨true, [], [strBytes "show version" ++ [10]], 0⟩,
         .ok (strBytes "host# show version" ++
           10 :: strBytes "FCR 1.0")) :=
  format_show_version_roundtrip (strBytes "FCR 1.0")
    (by decide) (by decide) (by decide) (by decide)
    70 (by decide) (by decide) 48 (by decide) (by decide)

end FCR
